import Mathlib

/-!
Verification development for `scripts/srec_cat_fill.py`, the Intel HEX
merge-and-fill engine of this repository.

The script is embedded shallowly:

* Python `dict[int, int]` memory images become association lists
  (`Image`) in which `set` replaces any previous binding of the key,
  so keys stay unique exactly as in a `dict`;
* Python `int(s, 16)` becomes `pyIntHex?` (`none` models `ValueError`);
  it covers the strings this program feeds it: the empty string and
  strings of hex digits (the program never passes signs, underscores or
  `0x` prefixes, which CPython would also accept);
* Python string slicing `s[a:b]` becomes `pySlice` with the same silent
  clamping behaviour;
* the `while current <= max_addr` emission loop becomes `emitLoop`,
  structurally recursive on a fuel argument; `write_records` supplies
  `max_addr + 1 - min_addr` fuel, which is enough because every
  iteration advances `current` by at least one (proved below);
* exceptions become `Except String` / `Option` results; an exception
  raised mid-loop aborts the whole surrounding call, so interleaved
  read/store loops are modelled as loops whose failure discards the
  whole result, exactly like the propagating Python exception;
* records, which the script formats directly with
  `":{:02X}{:04X}{:02X}{}{:02X}"`, are modelled as a `Rec` structure
  plus an `encodeRecord` function reproducing that exact format.
-/

/-- Value of one hexadecimal digit character, as accepted by Python's
`int(_, 16)` (both letter cases); `none` for a non-hex character. -/
def hexVal? (c : Char) : Option Nat :=
  if '0' ≤ c ∧ c ≤ '9' then some (c.toNat - 48)
  else if 'A' ≤ c ∧ c ≤ 'F' then some (c.toNat - 55)
  else if 'a' ≤ c ∧ c ≤ 'f' then some (c.toNat - 87)
  else none

/-- Model of Python `int(s, 16)` on the strings this program builds:
`none` (a `ValueError`) on the empty string or on any non-hex
character, otherwise the base-16 value of the digit string. -/
def pyIntHex? (cs : List Char) : Option Nat :=
  if cs.isEmpty then none
  else cs.foldl (fun acc c => acc.bind fun a => (hexVal? c).map fun v => 16 * a + v) (some 0)

/-- Python string slicing `s[a:b]` for `0 ≤ a ≤ b`: out-of-range
bounds clamp silently, never raising. -/
def pySlice (cs : List Char) (a b : Nat) : List Char := (cs.drop a).take (b - a)

/-- Python `str.strip()`: drop whitespace from both ends. -/
def pyStrip (cs : List Char) : List Char :=
  ((cs.dropWhile Char.isWhitespace).reverse.dropWhile Char.isWhitespace).reverse

/-- Memory image: the Python `dict` mapping address to byte.
Lookup takes the most recently written binding; `Image.set` keeps keys
unique, mirroring `dict` assignment. -/
abbrev Image := List (Nat × Nat)

/-- Dictionary lookup, `d.get(a)` / `d[a]`. -/
def Image.get (img : Image) (a : Nat) : Option Nat :=
  (img.find? fun p => p.1 == a).map Prod.snd

/-- Dictionary assignment `d[a] = v`: overwrites any existing binding. -/
def Image.set (img : Image) (a v : Nat) : Image :=
  (a, v) :: img.eraseP fun p => p.1 == a

/-- Image whose keys are unique, the `dict` invariant; every image the
script constructs satisfies it. -/
def Image.Wf (img : Image) : Prop := (img.map Prod.fst).Nodup

/-- Python `acc.update(new)`: every binding of `new` overwrites `acc`. -/
def Image.update (acc new : Image) : Image :=
  new.foldl (fun m p => m.set p.1 p.2) acc

/-- The merge loop of `main`: fold `update` over the images in file order. -/
def mergeAll (imgs : List Image) : Image := imgs.foldl Image.update []

/-- Keys of an image, for `min(d.keys())` / `max(d.keys())`. -/
def keyList (img : Image) : List Nat := img.map Prod.fst

/-- Python `min(d.keys())` (0 on the empty image, which the script
never queries because it raises first). -/
def minKey (img : Image) : Nat :=
  match keyList img with
  | [] => 0
  | k :: ks => ks.foldl min k

/-- Python `max(d.keys())` (0 on the empty image). -/
def maxKey (img : Image) : Nat :=
  match keyList img with
  | [] => 0
  | k :: ks => ks.foldl max k

/-- One Intel HEX record, the structured form of one output line. -/
structure Rec where
  byte_count : Nat
  offset : Nat
  record_type : Nat
  data : List Nat
  checksum : Nat
  deriving DecidableEq, Repr

/-- Checksum from `compute_checksum` in the source:
`total = byte_count + ((offset >> 8) & 0xFF) + (offset & 0xFF) + record_type + sum(data)`
then `(~total + 1) & 0xFF`; on Python integers `~t + 1 = -t`, and
`& 0xFF` of a negative integer is its value modulo 256. -/
def compute_checksum (byte_count offset record_type : Nat) (data_bytes : List Nat) : Nat :=
  let total := byte_count + ((offset >>> 8) &&& 255) + (offset &&& 255) + record_type
    + data_bytes.sum
  ((-(total : Int)) % 256).toNat

/-- The `gen_ext_record` helper: extended linear address record. -/
def genExtRecord (ext_addr : Nat) : Rec :=
  let data_bytes := [(ext_addr >>> 8) &&& 255, ext_addr &&& 255]
  { byte_count := 2, offset := 0, record_type := 4, data := data_bytes,
    checksum := compute_checksum 2 0 4 data_bytes }

/-- The literal `":00000001FF"` End Of File record the script appends. -/
def eofRec : Rec :=
  { byte_count := 0, offset := 0, record_type := 1, data := [], checksum := 255 }

/-- The `while current <= max_addr` loop of `write_data_as_hex`.
`fuel` only bounds the number of iterations; `write_records` passes
`maxAddr + 1 - minAddr`, enough because each iteration advances
`current` by `chunkLen ≥ 1`. -/
def emitLoop (img : Image) (maxAddr : Nat) : Nat → Nat → Option Nat → List Rec
  | 0, _, _ => []
  | fuel + 1, current, lastExt =>
    if current ≤ maxAddr then
      let extA := current >>> 16
      let offset := current &&& 65535
      let chunkLen := min (16 - offset % 16) (maxAddr - current + 1)
      let dataBytes := (List.range chunkLen).map fun i => (img.get (current + i)).getD 0
      let dataRec : Rec :=
        { byte_count := chunkLen, offset := offset, record_type := 0,
          data := dataBytes, checksum := compute_checksum chunkLen offset 0 dataBytes }
      (if some extA = lastExt then [] else [genExtRecord extA]) ++
        dataRec :: emitLoop img maxAddr fuel (current + chunkLen) (some extA)
    else []

/-- Record-level body of `write_data_as_hex`: raise
`ValueError("No data to write")` on an empty image, otherwise the data
walk followed by the End Of File record.  File writing is outside the
model; on the error branch no record is produced at all. -/
def write_records (img : Image) : Except String (List Rec) :=
  if img.isEmpty then .error "No data to write"
  else
    .ok (emitLoop img (maxKey img) (maxKey img + 1 - minKey img) (minKey img) none ++ [eofRec])

/-- Uppercase hex digit characters, the alphabet `"{:02X}".format`
emits. -/
def upperHexChars : List Char :=
  ['0', '1', '2', '3', '4', '5', '6', '7', '8', '9', 'A', 'B', 'C', 'D', 'E', 'F']

/-- Digit character of one hex digit value, uppercase as in `{:02X}`. -/
def hexDigitChar (n : Nat) : Char :=
  if n < 10 then Char.ofNat (48 + n) else Char.ofNat (55 + n)

/-- Hex digit characters of `n`, most significant first (empty for 0);
the first argument is fuel, `n` itself always being enough. -/
def toHexAux : Nat → Nat → List Char → List Char
  | 0, _, acc => acc
  | _ + 1, 0, acc => acc
  | fuel + 1, n + 1, acc =>
    toHexAux fuel ((n + 1) / 16) (hexDigitChar ((n + 1) % 16) :: acc)

/-- Uppercase hex digit string of `n` without padding (empty for 0). -/
def toHexChars (n : Nat) : List Char := toHexAux n n []

/-- Python `"{:0wX}".format(n)`: uppercase hex, zero-padded on the left
to at least `w` characters. -/
def padHexChars (w n : Nat) : List Char :=
  List.replicate (w - (toHexChars n).length) '0' ++ toHexChars n

/-- The record format string `":{:02X}{:04X}{:02X}{}{:02X}"` used for
every emitted line, applied to a structured record. -/
def encodeRecord (r : Rec) : List Char :=
  ':' :: (padHexChars 2 r.byte_count ++ padHexChars 4 r.offset ++ padHexChars 2 r.record_type
    ++ (r.data.map (padHexChars 2)).flatten ++ padHexChars 2 r.checksum)

/-- String-level `write_data_as_hex`: the exact lines the script writes
to the output file, one per record. -/
def write_data_as_hex (img : Image) : Except String (List String) :=
  (write_records img).map fun recs => recs.map fun r => String.mk (encodeRecord r)

/-- Field extraction of `parse_intel_hex` (source lines 12-16): slice
out `byte_count`, `offset`, `record_type` and the data field, each
failing like `int(_, 16)` does; the trailing checksum characters are
never read (the source comments that line out). -/
def decodeFields (cs : List Char) : Option (Nat × Nat × Nat × List Char) :=
  match pyIntHex? (pySlice cs 1 3), pyIntHex? (pySlice cs 3 7), pyIntHex? (pySlice cs 7 9) with
  | some byte_count, some offset, some record_type =>
    some (byte_count, offset, record_type, pySlice cs 9 (9 + byte_count * 2))
  | _, _, _ => none

/-- Data-record byte loop of `parse_intel_hex`:
`for i in range(byte_count): data[base_addr + i] = int(data_field[i*2:i*2+2], 16)`.
The index `i` counts up while the remaining count goes down; a failing
`int` aborts the whole parse, so the partially updated image is
discarded with it. -/
def readStoreBytes (data_field : List Char) (base_addr : Nat) :
    Nat → Nat → Image → Option Image
  | _, 0, img => some img
  | i, n + 1, img =>
    match pyIntHex? (pySlice data_field (i * 2) (i * 2 + 2)) with
    | some b => readStoreBytes data_field base_addr (i + 1) n (img.set (base_addr + i) b)
    | none => none

/-- Pure byte reading of a data field, the codec (`Decode`) view of
the same slicing loop: the bytes without the stores. -/
def readBytes (data_field : List Char) : Nat → Nat → Option (List Nat)
  | _, 0 => some []
  | i, n + 1 =>
    match pyIntHex? (pySlice data_field (i * 2) (i * 2 + 2)) with
    | some b => (readBytes data_field (i + 1) n).map fun bs => b :: bs
    | none => none

/-- Codec `Decode`: fields as `parse_intel_hex` slices them, data bytes
as its record loop reads them, checksum recomputed (the source never
reads the input checksum). -/
def decodeRecord (cs : List Char) : Option Rec :=
  match decodeFields cs with
  | some (byte_count, offset, record_type, data_field) =>
    (readBytes data_field 0 byte_count).map fun data =>
      { byte_count := byte_count, offset := offset, record_type := record_type,
        data := data, checksum := compute_checksum byte_count offset record_type data }
  | none => none

/-- Result of handling one input line inside `parse_intel_hex`. -/
inductive LineOut where
  | cont (extended_addr : Nat) (img : Image)
  | stop
  | err (msg : String)
  deriving DecidableEq, Repr

/-- One iteration of the `for line in f` loop of `parse_intel_hex`:
strip, skip blank and non-`:` lines, slice the fields, then dispatch on
the record type exactly in source order (0x04, 0x00, 0x01, other). -/
def processLine (raw : List Char) (extended_addr : Nat) (img : Image) : LineOut :=
  let line := pyStrip raw
  if line.head? ≠ some ':' then .cont extended_addr img
  else
    match decodeFields line with
    | none => .err "ValueError"
    | some (byte_count, offset, record_type, data_field) =>
      if record_type = 4 then
        if byte_count ≠ 2 then .err "Invalid extended linear address record length"
        else
          match pyIntHex? data_field with
          | some e => .cont e img
          | none => .err "ValueError"
      else if record_type = 0 then
        match readStoreBytes data_field ((extended_addr <<< 16) + offset) 0 byte_count img with
        | some img2 => .cont extended_addr img2
        | none => .err "ValueError"
      else if record_type = 1 then .stop
      else .cont extended_addr img

/-- The line loop of `parse_intel_hex`, threading the per-file
extended-address state and the image being built; `stop` is the
`break` on an End Of File record. -/
def parseLines : List (List Char) → Nat → Image → Except String Image
  | [], _, img => .ok img
  | l :: rest, extended_addr, img =>
    match processLine l extended_addr img with
    | .cont e img2 => parseLines rest e img2
    | .stop => .ok img
    | .err m => .error m

/-- `parse_intel_hex` on the lines of one file: extended address starts
at 0 and the image starts empty. -/
def parse_intel_hex (lines : List String) : Except String Image :=
  parseLines (lines.map String.toList) 0 []

/-- Value of the latest image in the sequence that contains the
address, the specification side of last-writer-wins merging. -/
def latestValue (imgs : List Image) (a : Nat) : Option Nat :=
  match imgs.reverse.find? (fun img => (img.get a).isSome) with
  | some img => img.get a
  | none => none

/-- Big-endian value of a two-byte data field, used to read an
extended linear address record back. -/
def twoByteBE : List Nat → Nat
  | [h, l] => 256 * h + l
  | _ => 0

/-- Reader of an emitted record sequence: pair every Data record with
the extended linear address in force where it appears (an ELA record
updates the state, other types leave it unchanged). -/
def dataPairsExt : Nat → List Rec → List (Nat × Rec)
  | _, [] => []
  | e, r :: rs =>
    if r.record_type = 4 then dataPairsExt (twoByteBE r.data) rs
    else if r.record_type = 0 then (e, r) :: dataPairsExt e rs
    else dataPairsExt e rs

/-- Address/byte pairs of one data payload laid out from `base`. -/
def flatOne (base : Nat) : List Nat → List (Nat × Nat)
  | [] => []
  | v :: vs => (base, v) :: flatOne (base + 1) vs

/-- Every address/byte pair an emitted record sequence describes, in
order, each Data record read at the extended address in force. -/
def flatBytes (pairs : List (Nat × Rec)) : List (Nat × Nat) :=
  pairs.flatMap fun p => flatOne ((p.1 <<< 16) + p.2.offset) p.2.data

/-- Extended linear address values of a record sequence, in order. -/
def elaSegs (recs : List Rec) : List Nat :=
  (recs.filter fun r => r.record_type == 4).map fun r => twoByteBE r.data

/-- Byte count field as `parse_intel_hex` reads it, for stating
well-formedness of a line (0 if the field is not hex). -/
def bcOf (cs : List Char) : Nat := (pyIntHex? (pySlice cs 1 3)).getD 0

/-- Canonical well-formed Intel HEX line: starts with `:`, everything
after is uppercase hex, and its length matches the byte count field
(9 header/data positions plus 2 checksum characters). -/
def WellFormedLine (cs : List Char) : Prop :=
  cs.head? = some ':' ∧ (∀ c ∈ cs.drop 1, c ∈ upperHexChars) ∧ cs.length = 11 + 2 * bcOf cs

instance : DecidablePred WellFormedLine := fun cs => by
  unfold WellFormedLine; infer_instance

instance : DecidablePred Image.Wf := fun img => by
  unfold Image.Wf; infer_instance

/-! ### Dictionary lemmas -/

theorem Image.get_set_self (img : Image) (a v : Nat) : (img.set a v).get a = some v := by
  simp [Image.get, Image.set]

theorem find?_key_cons_ne (k v b : Nat) (l : List (Nat × Nat)) (h : k ≠ b) :
    List.find? (fun p => p.1 == b) ((k, v) :: l) = List.find? (fun p => p.1 == b) l := by
  apply List.find?_cons_of_neg
  simp [h]

theorem find?_key_cons_eq (k v b : Nat) (l : List (Nat × Nat)) (h : k = b) :
    List.find? (fun p => p.1 == b) ((k, v) :: l) = some (k, v) := by
  apply List.find?_cons_of_pos
  simp [h]

theorem find?_eraseP_ne {a b : Nat} (h : b ≠ a) :
    ∀ l : List (Nat × Nat),
      (l.eraseP fun p => p.1 == a).find? (fun p => p.1 == b)
        = l.find? fun p => p.1 == b := by
  intro l
  induction l with
  | nil => rfl
  | cons x l ih =>
    rcases x with ⟨k, v⟩
    by_cases hx : k = a
    · have h1 : List.eraseP (fun p => p.1 == a) ((k, v) :: l) = l := by
        simp [List.eraseP_cons, hx]
      rw [h1, find?_key_cons_ne k v b l (by rw [hx]; exact Ne.symm h)]
    · have h1 : List.eraseP (fun p => p.1 == a) ((k, v) :: l)
          = (k, v) :: List.eraseP (fun p => p.1 == a) l := by
        simp [List.eraseP_cons, hx]
      rw [h1]
      by_cases hb : k = b
      · rw [find?_key_cons_eq k v b _ hb, find?_key_cons_eq k v b l hb]
      · rw [find?_key_cons_ne k v b _ hb, find?_key_cons_ne k v b l hb, ih]

theorem Image.get_set_ne (img : Image) {a b : Nat} (v : Nat) (h : b ≠ a) :
    (img.set a v).get b = img.get b := by
  unfold Image.get Image.set
  rw [find?_key_cons_ne a v b _ (Ne.symm h), find?_eraseP_ne h]

theorem Image.get_eq_none_of_not_mem (img : Image) {a : Nat}
    (h : a ∉ img.map Prod.fst) : img.get a = none := by
  unfold Image.get
  have hf : List.find? (fun p => p.1 == a) img = none := by
    rw [List.find?_eq_none]
    intro x hx hxa
    exact h (List.mem_map.mpr ⟨x, hx, by simpa using hxa⟩)
  rw [hf]; rfl

theorem Image.get_update (acc : Image) {new : Image} (hwf : new.Wf) (b : Nat) :
    (acc.update new).get b
      = match new.get b with
        | some v => some v
        | none => acc.get b := by
  induction new generalizing acc with
  | nil => rfl
  | cons kv rest ih =>
    obtain ⟨k, v⟩ := kv
    have hrest : Image.Wf rest := (List.nodup_cons.mp hwf).2
    have hk : k ∉ rest.map Prod.fst := (List.nodup_cons.mp hwf).1
    have hstep : Image.update acc ((k, v) :: rest) = Image.update (acc.set k v) rest := rfl
    rw [hstep, ih (acc.set k v) hrest]
    by_cases hbk : b = k
    · subst hbk
      rw [Image.get_eq_none_of_not_mem rest hk]
      have : Image.get ((b, v) :: rest) b = some v := by
        simp [Image.get]
      rw [this, Image.get_set_self]
    · have hget : Image.get ((k, v) :: rest) b = Image.get rest b := by
        unfold Image.get
        rw [find?_key_cons_ne k v b rest (fun hh : k = b => hbk hh.symm)]
      rw [hget, Image.get_set_ne acc v hbk]

theorem latestValue_nil (a : Nat) : latestValue [] a = none := rfl

theorem latestValue_cons (i : Image) (rest : List Image) (a : Nat) :
    latestValue (i :: rest) a
      = match latestValue rest a with
        | some v => some v
        | none => i.get a := by
  unfold latestValue
  rw [List.reverse_cons, List.find?_append]
  rcases hr : List.find? (fun img => (Image.get img a).isSome) rest.reverse with _ | img0
  · rcases hi : i.get a with _ | v
    · simp [List.find?, hi, Option.or]
    · simp [List.find?, hi, Option.or]
  · have := List.find?_some hr
    rcases himg : img0.get a with _ | v
    · rw [himg] at this; simp at this
    · simp [Option.or, himg]

theorem get_foldl_update (imgs : List Image) :
    ∀ acc : Image, (∀ i ∈ imgs, i.Wf) → ∀ b,
      (imgs.foldl Image.update acc).get b
        = match latestValue imgs b with
          | some v => some v
          | none => acc.get b := by
  induction imgs with
  | nil => intro acc _ b; rfl
  | cons i rest ih =>
    intro acc hwf b
    have hstep : List.foldl Image.update acc (i :: rest) = List.foldl Image.update (acc.update i) rest := rfl
    rw [hstep, ih (acc.update i) (fun j hj => hwf j (List.mem_cons_of_mem _ hj)) b,
      latestValue_cons]
    rcases latestValue rest b with _ | v
    · exact Image.get_update acc (hwf i (List.mem_cons_self _ _)) b
    · rfl

/-- C1: merging is fold-left with last-writer-wins per address.  Part
one: for every ordered sequence of key-unique memory images, the merged
image maps each address to the value of the latest image containing it.
Part two: `mergeAll [A, B]` reads as B-over-A, and wherever it differs
from `mergeAll [B, A]` both images contain the address and each order
keeps its later argument's value. -/
theorem merge_fold_last_writer_wins :
    (∀ imgs : List Image, (∀ i ∈ imgs, i.Wf) → ∀ a,
        (mergeAll imgs).get a = latestValue imgs a)
    ∧ ∀ A B : Image, A.Wf → B.Wf → ∀ a,
        ((mergeAll [A, B]).get a
            = match B.get a with
              | some v => some v
              | none => A.get a)
        ∧ ((mergeAll [A, B]).get a ≠ (mergeAll [B, A]).get a →
            (A.get a).isSome ∧ (B.get a).isSome
              ∧ (mergeAll [A, B]).get a = B.get a
              ∧ (mergeAll [B, A]).get a = A.get a) := by
  have hmain : ∀ imgs : List Image, (∀ i ∈ imgs, i.Wf) → ∀ a,
      (mergeAll imgs).get a = latestValue imgs a := by
    intro imgs hwf a
    unfold mergeAll
    rw [get_foldl_update imgs [] hwf a]
    rcases latestValue imgs a with _ | v
    · rfl
    · rfl
  have hpair : ∀ A B : Image, A.Wf → B.Wf → ∀ a,
      (mergeAll [A, B]).get a
        = match B.get a with
          | some v => some v
          | none => A.get a := by
    intro A B hA hB a
    have hAB : ∀ i ∈ [A, B], Image.Wf i := by
      intro i hi
      simp only [List.mem_cons, List.not_mem_nil, or_false] at hi
      rcases hi with rfl | rfl
      · exact hA
      · exact hB
    rw [hmain [A, B] hAB a, latestValue_cons, latestValue_cons, latestValue_nil]
  refine ⟨hmain, fun A B hA hB a => ⟨hpair A B hA hB a, fun hne => ?_⟩⟩
  have h1 := hpair A B hA hB a
  have h2 := hpair B A hB hA a
  rcases hA2 : A.get a with _ | va <;> rcases hB2 : B.get a with _ | vb <;>
    rw [hA2, hB2] at h1 h2 <;> simp_all

/-- Witness for C1 at concrete images. -/
theorem merge_fold_last_writer_wins_witness :
    (mergeAll [[(0, 1)], [(0, 2)]]).get 0 = latestValue [[(0, 1)], [(0, 2)]] 0 :=
  merge_fold_last_writer_wins.1 [[(0, 1)], [(0, 2)]] (by decide) 0

/-- C8: emission applied to an empty memory image fails with the
empty-image error before producing anything, at the record level and at
the output-line level alike. -/
theorem write_empty_image_fails :
    write_records [] = Except.error "No data to write"
      ∧ write_data_as_hex [] = Except.error "No data to write" := by
  constructor <;> rfl

/-! ### Checksum lemmas -/

theorem checksum_sum_mod (bc off rt : Nat) (d : List Nat) :
    (bc + ((off >>> 8) &&& 255) + (off &&& 255) + rt + d.sum
        + compute_checksum bc off rt d) % 256 = 0 := by
  simp only [compute_checksum]
  omega

theorem emitLoop_checksum (img : Image) (maxAddr : Nat) :
    ∀ fuel cur le r, r ∈ emitLoop img maxAddr fuel cur le →
      r.checksum = compute_checksum r.byte_count r.offset r.record_type r.data := by
  intro fuel
  induction fuel with
  | zero => intro cur le r hr; simp [emitLoop] at hr
  | succ n ih =>
    intro cur le r hr
    simp only [emitLoop] at hr
    split at hr
    · rcases List.mem_append.mp hr with hh | ht
      · split at hh
        · simp at hh
        · simp only [List.mem_singleton] at hh
          subst hh; rfl
      · rcases List.mem_cons.mp ht with h1 | h1
        · subst h1; rfl
        · exact ih _ _ r h1
    · simp at hr

/-- C2: every record that emission produces (Data, ExtendedLinearAddress
and EndOfFile alike) carries the two's complement checksum of its fields,
so the unsigned byte-sum of byte count, both offset bytes, record type,
data bytes and checksum is 0 mod 256. -/
theorem emit_checksum_valid (img : Image) (recs : List Rec)
    (hw : write_records img = Except.ok recs) :
    ∀ r ∈ recs,
      r.checksum = compute_checksum r.byte_count r.offset r.record_type r.data
      ∧ (r.byte_count + ((r.offset >>> 8) &&& 255) + (r.offset &&& 255) + r.record_type
          + r.data.sum + r.checksum) % 256 = 0 := by
  intro r hr
  have hcs : r.checksum = compute_checksum r.byte_count r.offset r.record_type r.data := by
    unfold write_records at hw
    by_cases he : img.isEmpty
    · rw [if_pos he] at hw; cases hw
    · rw [if_neg he] at hw
      cases hw
      rcases List.mem_append.mp hr with hh | ht
      · exact emitLoop_checksum img (maxKey img) _ _ _ r hh
      · have : r = eofRec := by simpa using ht
        subst this; decide
  refine ⟨hcs, ?_⟩
  rw [hcs]
  exact checksum_sum_mod r.byte_count r.offset r.record_type r.data

/-- Witness for C2 on a one-byte image, checking the End Of File record. -/
theorem emit_checksum_valid_witness :
    eofRec.checksum
        = compute_checksum eofRec.byte_count eofRec.offset eofRec.record_type eofRec.data
      ∧ (eofRec.byte_count + ((eofRec.offset >>> 8) &&& 255) + (eofRec.offset &&& 255)
          + eofRec.record_type + eofRec.data.sum + eofRec.checksum) % 256 = 0 :=
  emit_checksum_valid [(0, 5)]
    [genExtRecord 0,
      { byte_count := 1, offset := 0, record_type := 0, data := [5],
        checksum := compute_checksum 1 0 0 [5] }, eofRec]
    (by rfl) eofRec (by decide)

/-! ### Arithmetic bridges between bit operations and div/mod -/

theorem and_65535_eq (n : Nat) : n &&& 65535 = n % 65536 := by
  have h := Nat.and_pow_two_sub_one_eq_mod n 16
  norm_num at h
  exact h

theorem and_255_eq (n : Nat) : n &&& 255 = n % 256 := by
  have h := Nat.and_pow_two_sub_one_eq_mod n 8
  norm_num at h
  exact h

theorem shr16_eq (n : Nat) : n >>> 16 = n / 65536 := by
  rw [Nat.shiftRight_eq_div_pow]

theorem shr8_eq (n : Nat) : n >>> 8 = n / 256 := by
  rw [Nat.shiftRight_eq_div_pow]

theorem shl16_eq (n : Nat) : n <<< 16 = n * 65536 := by
  rw [Nat.shiftLeft_eq]

theorem ext_plus_offset (n : Nat) : (n >>> 16) <<< 16 + (n &&& 65535) = n := by
  rw [shr16_eq, shl16_eq, and_65535_eq]
  omega

theorem twoByteBE_genExt (e : Nat) (he : e < 65536) :
    twoByteBE (genExtRecord e).data = e := by
  simp only [genExtRecord, twoByteBE]
  rw [shr8_eq, and_255_eq, and_255_eq]
  omega

/-! ### Minimum and maximum key -/

theorem foldl_min_le_init : ∀ (l : List Nat) (a : Nat), l.foldl min a ≤ a := by
  intro l
  induction l with
  | nil => intro a; exact Nat.le_refl a
  | cons x l ih =>
    intro a
    exact Nat.le_trans (ih (min a x)) (Nat.min_le_left a x)

theorem foldl_min_le_mem : ∀ (l : List Nat) (a k : Nat), k ∈ l → l.foldl min a ≤ k := by
  intro l
  induction l with
  | nil => intro a k hk; cases hk
  | cons x l ih =>
    intro a k hk
    rcases List.mem_cons.mp hk with rfl | hk2
    · exact Nat.le_trans (foldl_min_le_init l (min a k)) (Nat.min_le_right a k)
    · exact ih (min a x) k hk2

theorem foldl_min_mem : ∀ (l : List Nat) (a : Nat), l.foldl min a = a ∨ l.foldl min a ∈ l := by
  intro l
  induction l with
  | nil => intro a; exact Or.inl rfl
  | cons x l ih =>
    intro a
    rw [List.foldl_cons]
    rcases ih (min a x) with h | h
    · rw [h]
      by_cases hab : a ≤ x
      · exact Or.inl (by omega)
      · refine Or.inr ?_
        have hmin : min a x = x := by omega
        rw [hmin]
        exact List.mem_cons_self x l
    · exact Or.inr (List.mem_cons_of_mem x h)

theorem le_foldl_max_init : ∀ (l : List Nat) (a : Nat), a ≤ l.foldl max a := by
  intro l
  induction l with
  | nil => intro a; exact Nat.le_refl a
  | cons x l ih =>
    intro a
    exact Nat.le_trans (Nat.le_max_left a x) (ih (max a x))

theorem le_foldl_max_mem : ∀ (l : List Nat) (a k : Nat), k ∈ l → k ≤ l.foldl max a := by
  intro l
  induction l with
  | nil => intro a k hk; cases hk
  | cons x l ih =>
    intro a k hk
    rcases List.mem_cons.mp hk with rfl | hk2
    · exact Nat.le_trans (Nat.le_max_right a k) (le_foldl_max_init l (max a k))
    · exact ih (max a x) k hk2

theorem minKey_mem_keys (img : Image) (h : img ≠ []) : minKey img ∈ keyList img := by
  rcases himg : keyList img with _ | ⟨k, ks⟩
  · rcases img with _ | ⟨p, rest⟩
    · exact absurd rfl h
    · simp [keyList] at himg
  · unfold minKey
    rw [himg]
    show List.foldl min k ks ∈ k :: ks
    rcases foldl_min_mem ks k with h2 | h2
    · rw [h2]; exact List.mem_cons_self k ks
    · exact List.mem_cons_of_mem k h2

theorem le_maxKey_of_mem (img : Image) {k : Nat} (h : k ∈ keyList img) :
    k ≤ maxKey img := by
  rcases himg : keyList img with _ | ⟨k0, ks⟩
  · rw [himg] at h; cases h
  · unfold maxKey
    rw [himg]
    rw [himg] at h
    show k ≤ List.foldl max k0 ks
    rcases List.mem_cons.mp h with rfl | h2
    · exact le_foldl_max_init ks k
    · exact le_foldl_max_mem ks k0 k h2

theorem minKey_le_of_mem (img : Image) {k : Nat} (h : k ∈ keyList img) :
    minKey img ≤ k := by
  rcases himg : keyList img with _ | ⟨k0, ks⟩
  · rw [himg] at h; cases h
  · unfold minKey
    rw [himg]
    rw [himg] at h
    show List.foldl min k0 ks ≤ k
    rcases List.mem_cons.mp h with rfl | h2
    · exact foldl_min_le_init ks k
    · exact foldl_min_le_mem ks k0 k h2

theorem minKey_le_maxKey (img : Image) (h : img ≠ []) : minKey img ≤ maxKey img :=
  le_maxKey_of_mem img (minKey_mem_keys img h)

/-! ### Emission walk characterization -/

theorem dataPairsExt_cons_data (e : Nat) (r : Rec) (rs : List Rec) (h : r.record_type = 0) :
    dataPairsExt e (r :: rs) = (e, r) :: dataPairsExt e rs := by
  simp only [dataPairsExt]
  rw [if_neg (by omega), if_pos h]

theorem dataPairsExt_cons_ela (e : Nat) (r : Rec) (rs : List Rec) (h : r.record_type = 4) :
    dataPairsExt e (r :: rs) = dataPairsExt (twoByteBE r.data) rs := by
  simp only [dataPairsExt]
  rw [if_pos h]

theorem dataPairsExt_cons_other (e : Nat) (r : Rec) (rs : List Rec)
    (h4 : r.record_type ≠ 4) (h0 : r.record_type ≠ 0) :
    dataPairsExt e (r :: rs) = dataPairsExt e rs := by
  simp only [dataPairsExt]
  rw [if_neg h4, if_neg h0]

theorem emitLoop_nil_of_gt (img : Image) (maxAddr fuel cur : Nat) (le : Option Nat)
    (h : maxAddr < cur) : emitLoop img maxAddr fuel cur le = [] := by
  cases fuel with
  | zero => rfl
  | succ n =>
    simp only [emitLoop]
    rw [if_neg (by omega)]

theorem flatOne_range_img (img : Image) :
    ∀ n cur, flatOne cur ((List.range n).map fun i => (img.get (cur + i)).getD 0)
      = (List.range' cur n).map fun a => (a, (img.get a).getD 0) := by
  intro n
  induction n with
  | zero => intro cur; rfl
  | succ m ih =>
    intro cur
    rw [List.range_succ_eq_map, List.range'_succ]
    simp only [List.map_cons, List.map_map, Nat.add_zero]
    have hfun : ((fun i => (img.get (cur + i)).getD 0) ∘ Nat.succ)
        = fun i => (img.get ((cur + 1) + i)).getD 0 := by
      funext i
      simp only [Function.comp_apply, Nat.succ_eq_add_one]
      rw [Nat.add_comm i 1, ← Nat.add_assoc]
    rw [hfun]
    show (cur, (img.get cur).getD 0)
        :: flatOne (cur + 1) ((List.range m).map fun i => (img.get ((cur + 1) + i)).getD 0)
      = (cur, (img.get cur).getD 0)
        :: (List.range' (cur + 1) m).map fun a => (a, (img.get a).getD 0)
    rw [ih (cur + 1)]

theorem emitLoop_flatBytes (img : Image) (maxAddr : Nat) (hmax : maxAddr < 4294967296) :
    ∀ fuel cur le r0, cur ≤ maxAddr → maxAddr + 1 - cur ≤ fuel →
      (∀ e, le = some e → r0 = e) →
      flatBytes (dataPairsExt r0 (emitLoop img maxAddr fuel cur le))
        = (List.range' cur (maxAddr + 1 - cur)).map fun a => (a, (img.get a).getD 0) := by
  intro fuel
  induction fuel with
  | zero => intro cur le r0 h1 h2 _; omega
  | succ n ih =>
    intro cur le r0 hcur hfuel hle
    simp only [emitLoop]
    rw [if_pos hcur]
    have hoff : cur &&& 65535 = cur % 65536 := and_65535_eq cur
    have hoffmod : (cur &&& 65535) % 16 = cur % 16 := by rw [hoff]; omega
    have hextlt : cur >>> 16 < 65536 := by rw [shr16_eq]; omega
    have hchunk1 : 1 ≤ min (16 - (cur &&& 65535) % 16) (maxAddr - cur + 1) := by
      rw [hoffmod]; omega
    have hchunk2 : cur + min (16 - (cur &&& 65535) % 16) (maxAddr - cur + 1) ≤ maxAddr + 1 := by
      rw [hoffmod]; omega
    have hbase : (cur >>> 16) <<< 16 + (cur &&& 65535) = cur := ext_plus_offset cur
    have hjoin : List.range' cur (min (16 - (cur &&& 65535) % 16) (maxAddr - cur + 1))
          ++ List.range' (cur + min (16 - (cur &&& 65535) % 16) (maxAddr - cur + 1))
            (maxAddr + 1 - (cur + min (16 - (cur &&& 65535) % 16) (maxAddr - cur + 1)))
        = List.range' cur (maxAddr + 1 - cur) := by
      rw [List.range'_append_1]
      congr 1
      omega
    have hrest : flatBytes (dataPairsExt (cur >>> 16)
          (emitLoop img maxAddr n (cur + min (16 - (cur &&& 65535) % 16) (maxAddr - cur + 1))
            (some (cur >>> 16))))
        = (List.range' (cur + min (16 - (cur &&& 65535) % 16) (maxAddr - cur + 1))
            (maxAddr + 1 - (cur + min (16 - (cur &&& 65535) % 16) (maxAddr - cur + 1)))).map
            fun a => (a, (img.get a).getD 0) := by
      by_cases hend : cur + min (16 - (cur &&& 65535) % 16) (maxAddr - cur + 1) ≤ maxAddr
      · exact ih _ (some (cur >>> 16)) (cur >>> 16) hend (by omega)
          (fun e he => Option.some.inj he)
      · rw [emitLoop_nil_of_gt img maxAddr n _ _ (by omega)]
        have hz : maxAddr + 1
            - (cur + min (16 - (cur &&& 65535) % 16) (maxAddr - cur + 1)) = 0 := by
          omega
        rw [hz]
        rfl
    by_cases hif : some (cur >>> 16) = le
    · rw [if_pos hif]
      have hr0 : r0 = cur >>> 16 := hle (cur >>> 16) hif.symm
      subst hr0
      rw [List.nil_append, dataPairsExt_cons_data _ _ _ rfl]
      show flatOne ((cur >>> 16) <<< 16 + (cur &&& 65535))
            ((List.range (min (16 - (cur &&& 65535) % 16) (maxAddr - cur + 1))).map
              fun i => (img.get (cur + i)).getD 0)
          ++ flatBytes (dataPairsExt (cur >>> 16)
            (emitLoop img maxAddr n
              (cur + min (16 - (cur &&& 65535) % 16) (maxAddr - cur + 1)) (some (cur >>> 16))))
        = (List.range' cur (maxAddr + 1 - cur)).map fun a => (a, (img.get a).getD 0)
      rw [hbase, flatOne_range_img img _ cur, hrest, ← List.map_append, hjoin]
    · rw [if_neg hif]
      rw [List.singleton_append, dataPairsExt_cons_ela _ _ _ rfl]
      have htwo : twoByteBE (genExtRecord (cur >>> 16)).data = cur >>> 16 :=
        twoByteBE_genExt (cur >>> 16) hextlt
      rw [htwo, dataPairsExt_cons_data _ _ _ rfl]
      show flatOne ((cur >>> 16) <<< 16 + (cur &&& 65535))
            ((List.range (min (16 - (cur &&& 65535) % 16) (maxAddr - cur + 1))).map
              fun i => (img.get (cur + i)).getD 0)
          ++ flatBytes (dataPairsExt (cur >>> 16)
            (emitLoop img maxAddr n
              (cur + min (16 - (cur &&& 65535) % 16) (maxAddr - cur + 1)) (some (cur >>> 16))))
        = (List.range' cur (maxAddr + 1 - cur)).map fun a => (a, (img.get a).getD 0)
      rw [hbase, flatOne_range_img img _ cur, hrest, ← List.map_append, hjoin]

theorem emitLoop_data_shape (img : Image) (maxAddr : Nat) (hmax : maxAddr < 4294967296) :
    ∀ fuel cur le r0, cur ≤ maxAddr →
      (∀ e, le = some e → r0 = e) →
      ∀ p ∈ dataPairsExt r0 (emitLoop img maxAddr fuel cur le),
        p.2.record_type = 0
        ∧ p.2.data.length = p.2.byte_count
        ∧ p.1 <<< 16 + p.2.offset ≤ maxAddr
        ∧ p.2.offset = (p.1 <<< 16 + p.2.offset) &&& 65535
        ∧ p.2.byte_count
            = min (16 - p.2.offset % 16) (maxAddr - (p.1 <<< 16 + p.2.offset) + 1) := by
  intro fuel
  induction fuel with
  | zero =>
    intro cur le r0 h1 h2 p hp
    simp [emitLoop, dataPairsExt] at hp
  | succ n ih =>
    intro cur le r0 hcur hle p hp
    simp only [emitLoop] at hp
    rw [if_pos hcur] at hp
    have hoff : cur &&& 65535 = cur % 65536 := and_65535_eq cur
    have hsh : cur >>> 16 = cur / 65536 := shr16_eq cur
    have hextlt : cur >>> 16 < 65536 := by omega
    have hbase : (cur >>> 16) <<< 16 + (cur &&& 65535) = cur := ext_plus_offset cur
    have hb1 : (cur >>> 16) <<< 16 + (cur &&& 65535) ≤ maxAddr := by
      rw [hbase]; exact hcur
    have hb2 : cur &&& 65535 = ((cur >>> 16) <<< 16 + (cur &&& 65535)) &&& 65535 := by
      rw [hbase]
    have hb3 : min (16 - (cur &&& 65535) % 16) (maxAddr - cur + 1)
        = min (16 - (cur &&& 65535) % 16)
            (maxAddr - ((cur >>> 16) <<< 16 + (cur &&& 65535)) + 1) := by
      rw [hbase]
    have hrest : ∀ q ∈ dataPairsExt (cur >>> 16)
        (emitLoop img maxAddr n (cur + min (16 - (cur &&& 65535) % 16) (maxAddr - cur + 1))
          (some (cur >>> 16))),
        q.2.record_type = 0
        ∧ q.2.data.length = q.2.byte_count
        ∧ q.1 <<< 16 + q.2.offset ≤ maxAddr
        ∧ q.2.offset = (q.1 <<< 16 + q.2.offset) &&& 65535
        ∧ q.2.byte_count
            = min (16 - q.2.offset % 16) (maxAddr - (q.1 <<< 16 + q.2.offset) + 1) := by
      by_cases hend : cur + min (16 - (cur &&& 65535) % 16) (maxAddr - cur + 1) ≤ maxAddr
      · exact ih _ (some (cur >>> 16)) (cur >>> 16) hend (fun e he => Option.some.inj he)
      · intro q hq
        rw [emitLoop_nil_of_gt img maxAddr n _ _ (by omega)] at hq
        simp [dataPairsExt] at hq
    by_cases hif : some (cur >>> 16) = le
    · rw [if_pos hif] at hp
      have hr0 : r0 = cur >>> 16 := hle _ hif.symm
      subst hr0
      rw [List.nil_append, dataPairsExt_cons_data _ _ _ rfl] at hp
      rcases List.mem_cons.mp hp with rfl | hp2
      · exact ⟨rfl, by simp, hb1, hb2, hb3⟩
      · exact hrest p hp2
    · rw [if_neg hif] at hp
      rw [List.singleton_append, dataPairsExt_cons_ela _ _ _ rfl,
        twoByteBE_genExt (cur >>> 16) hextlt, dataPairsExt_cons_data _ _ _ rfl] at hp
      rcases List.mem_cons.mp hp with rfl | hp2
      · exact ⟨rfl, by simp, hb1, hb2, hb3⟩
      · exact hrest p hp2

theorem elaSegs_cons_of_ne (r : Rec) (rs : List Rec) (h : r.record_type ≠ 4) :
    elaSegs (r :: rs) = elaSegs rs := by
  simp [elaSegs, List.filter_cons, h]

theorem elaSegs_cons_of_eq (r : Rec) (rs : List Rec) (h : r.record_type = 4) :
    elaSegs (r :: rs) = twoByteBE r.data :: elaSegs rs := by
  simp [elaSegs, List.filter_cons, h]

theorem div_step_dichotomy (cur c2 : Nat) (h1 : cur < c2) (h2 : c2 ≤ cur + 16 - cur % 16) :
    c2 / 65536 = cur / 65536 ∨ c2 / 65536 = cur / 65536 + 1 := by
  omega

theorem div_same_block (cur m c2 : Nat) (h3 : cur ≤ m) (h4 : m < c2)
    (h2 : c2 ≤ cur + 16 - cur % 16) : m / 65536 = cur / 65536 := by
  omega

theorem emitLoop_elaSegs (img : Image) (maxAddr : Nat) (hmax : maxAddr < 4294967296) :
    ∀ fuel cur le, cur ≤ maxAddr → maxAddr + 1 - cur ≤ fuel →
      elaSegs (emitLoop img maxAddr fuel cur le)
        = if le = some (cur >>> 16)
          then List.range' (cur >>> 16 + 1) (maxAddr >>> 16 - cur >>> 16)
          else List.range' (cur >>> 16) (maxAddr >>> 16 - cur >>> 16 + 1) := by
  intro fuel
  induction fuel with
  | zero => intro cur le h1 h2; omega
  | succ n ih =>
    intro cur le hcur hfuel
    simp only [emitLoop]
    rw [if_pos hcur]
    have hoff : cur &&& 65535 = cur % 65536 := and_65535_eq cur
    have hsh : cur >>> 16 = cur / 65536 := shr16_eq cur
    have hshm : maxAddr >>> 16 = maxAddr / 65536 := shr16_eq maxAddr
    have hextlt : cur >>> 16 < 65536 := by omega
    have hoffmod : (cur &&& 65535) % 16 = cur % 16 := by rw [hoff]; omega
    have hchunkle : min (16 - (cur &&& 65535) % 16) (maxAddr - cur + 1)
        ≤ 16 - (cur &&& 65535) % 16 := min_le_left _ _
    have hchunk1 : 1 ≤ min (16 - (cur &&& 65535) % 16) (maxAddr - cur + 1) := by
      omega
    have hchunkstep : cur + min (16 - (cur &&& 65535) % 16) (maxAddr - cur + 1)
        ≤ cur + 16 - cur % 16 := by
      omega
    have hsh2 : (cur + min (16 - (cur &&& 65535) % 16) (maxAddr - cur + 1)) >>> 16
        = (cur + min (16 - (cur &&& 65535) % 16) (maxAddr - cur + 1)) / 65536 := shr16_eq _
    have hrest : elaSegs (emitLoop img maxAddr n
          (cur + min (16 - (cur &&& 65535) % 16) (maxAddr - cur + 1)) (some (cur >>> 16)))
        = List.range' (cur >>> 16 + 1) (maxAddr >>> 16 - cur >>> 16) := by
      by_cases hend : cur + min (16 - (cur &&& 65535) % 16) (maxAddr - cur + 1) ≤ maxAddr
      · rw [ih _ (some (cur >>> 16)) hend (by omega)]
        rcases div_step_dichotomy cur
            (cur + min (16 - (cur &&& 65535) % 16) (maxAddr - cur + 1)) (by omega) hchunkstep
          with hsame | hinc
        · have hsame2 : (cur + min (16 - (cur &&& 65535) % 16) (maxAddr - cur + 1)) >>> 16
              = cur >>> 16 := by rw [hsh2, hsame, hsh]
          rw [hsame2, if_pos rfl]
        · have hinc2 : (cur + min (16 - (cur &&& 65535) % 16) (maxAddr - cur + 1)) >>> 16
              = cur >>> 16 + 1 := by rw [hsh2, hinc, hsh]
          have hmono : (cur + min (16 - (cur &&& 65535) % 16) (maxAddr - cur + 1)) >>> 16
              ≤ maxAddr >>> 16 := by
            rw [hsh2, hshm]
            exact Nat.div_le_div_right hend
          have hge : cur >>> 16 + 1 ≤ maxAddr >>> 16 := hinc2 ▸ hmono
          rw [hinc2, if_neg (fun hh => by have h2 := Option.some.inj hh; omega)]
          congr 1
          have harith : ∀ x y : Nat, x + 1 ≤ y → y - (x + 1) + 1 = y - x := by
            intro x y h; omega
          exact harith _ _ hge
      · have heq : maxAddr >>> 16 = cur >>> 16 := by
          rw [hshm, hsh]
          exact div_same_block cur maxAddr
            (cur + min (16 - (cur &&& 65535) % 16) (maxAddr - cur + 1)) hcur (by omega)
            hchunkstep
        rw [emitLoop_nil_of_gt img maxAddr n _ _ (by omega), heq, Nat.sub_self]
        rfl
    by_cases hif : some (cur >>> 16) = le
    · rw [if_pos hif, List.nil_append, elaSegs_cons_of_ne _ _ (by simp), hrest,
        if_pos hif.symm]
    · rw [if_neg hif, List.singleton_append, elaSegs_cons_of_eq _ _ rfl,
        twoByteBE_genExt (cur >>> 16) hextlt, elaSegs_cons_of_ne _ _ (by simp), hrest,
        if_neg (fun hh => hif hh.symm), List.range'_succ]

theorem dataPairsExt_append_eof : ∀ (l : List Rec) (e : Nat),
    dataPairsExt e (l ++ [eofRec]) = dataPairsExt e l := by
  intro l
  induction l with
  | nil => intro e; rfl
  | cons r rs ih =>
    intro e
    by_cases h4 : r.record_type = 4
    · rw [List.cons_append, dataPairsExt_cons_ela _ _ _ h4, dataPairsExt_cons_ela _ _ _ h4, ih]
    · by_cases h0 : r.record_type = 0
      · rw [List.cons_append, dataPairsExt_cons_data _ _ _ h0,
          dataPairsExt_cons_data _ _ _ h0, ih]
      · rw [List.cons_append, dataPairsExt_cons_other _ _ _ h4 h0,
          dataPairsExt_cons_other _ _ _ h4 h0, ih]

theorem elaSegs_append_eof (l : List Rec) : elaSegs (l ++ [eofRec]) = elaSegs l := by
  unfold elaSegs
  rw [List.filter_append]
  have h2 : List.filter (fun r => r.record_type == 4) [eofRec] = [] := rfl
  rw [h2, List.append_nil]

theorem write_records_ok (img : Image) (recs : List Rec)
    (hw : write_records img = Except.ok recs) :
    img ≠ []
    ∧ recs = emitLoop img (maxKey img) (maxKey img + 1 - minKey img) (minKey img) none
        ++ [eofRec] := by
  unfold write_records at hw
  by_cases he : img.isEmpty
  · rw [if_pos he] at hw
    cases hw
  · rw [if_neg he] at hw
    cases hw
    exact ⟨by simpa using he, rfl⟩

/-- C4: gap fill.  Reading the whole emitted record sequence back (each
Data record at the extended address in force) yields exactly one byte
for every address from `min_addr` to `max_addr`, in order: the stored
byte where the image contains the address, the fill byte 0 where it
does not.  Pointwise: an absent address contributes `(a, 0)`, a present
one its stored value. -/
theorem emit_gap_fill (img : Image) (recs : List Rec)
    (hmax : maxKey img < 4294967296) (hw : write_records img = Except.ok recs) :
    flatBytes (dataPairsExt 0 recs)
      = (List.range' (minKey img) (maxKey img + 1 - minKey img)).map
          (fun a => (a, (img.get a).getD 0))
    ∧ ∀ a, minKey img ≤ a → a ≤ maxKey img →
        (img.get a = none → (a, 0) ∈ flatBytes (dataPairsExt 0 recs))
        ∧ ∀ v, img.get a = some v → (a, v) ∈ flatBytes (dataPairsExt 0 recs) := by
  obtain ⟨hne, hrecs⟩ := write_records_ok img recs hw
  subst hrecs
  rw [dataPairsExt_append_eof]
  have hEq := emitLoop_flatBytes img (maxKey img) hmax (maxKey img + 1 - minKey img)
    (minKey img) none 0 (minKey_le_maxKey img hne) (Nat.le_refl _) (fun e he => by cases he)
  refine ⟨hEq, ?_⟩
  intro a ha1 ha2
  have hmem : a ∈ List.range' (minKey img) (maxKey img + 1 - minKey img) := by
    rw [List.mem_range']
    exact ⟨a - minKey img, by omega, by omega⟩
  have hpm : (a, (img.get a).getD 0)
      ∈ flatBytes (dataPairsExt 0
          (emitLoop img (maxKey img) (maxKey img + 1 - minKey img) (minKey img) none)) := by
    rw [hEq]
    exact List.mem_map_of_mem _ hmem
  constructor
  · intro hnone
    rw [hnone] at hpm
    exact hpm
  · intro v hv
    rw [hv] at hpm
    exact hpm

/-- Witness for C4 on the one-byte image with address 0 and value 5. -/
theorem emit_gap_fill_witness :
    flatBytes (dataPairsExt 0
        [genExtRecord 0,
          { byte_count := 1, offset := 0, record_type := 0, data := [5],
            checksum := compute_checksum 1 0 0 [5] }, eofRec])
      = (List.range' (minKey [(0, 5)]) (maxKey [(0, 5)] + 1 - minKey [(0, 5)])).map
          (fun a => (a, (Image.get [(0, 5)] a).getD 0))
    ∧ ∀ a, minKey [(0, 5)] ≤ a → a ≤ maxKey [(0, 5)] →
        (Image.get [(0, 5)] a = none → (a, 0) ∈ flatBytes (dataPairsExt 0
          [genExtRecord 0,
            { byte_count := 1, offset := 0, record_type := 0, data := [5],
              checksum := compute_checksum 1 0 0 [5] }, eofRec]))
        ∧ ∀ v, Image.get [(0, 5)] a = some v → (a, v) ∈ flatBytes (dataPairsExt 0
          [genExtRecord 0,
            { byte_count := 1, offset := 0, record_type := 0, data := [5],
              checksum := compute_checksum 1 0 0 [5] }, eofRec]) :=
  emit_gap_fill [(0, 5)]
    [genExtRecord 0,
      { byte_count := 1, offset := 0, record_type := 0, data := [5],
        checksum := compute_checksum 1 0 0 [5] }, eofRec]
    (by norm_num [maxKey, keyList]) (by rfl)

/-- C5: every emitted Data record, read at its extended address `p.1`
with base address `p.1 <<< 16 + offset`, has byte count
`min(16 - offset % 16, max_addr - base + 1)`, never crosses a 16-byte
alignment boundary, and never covers an address beyond `max_addr`. -/
theorem emit_chunk_bounds (img : Image) (recs : List Rec)
    (hmax : maxKey img < 4294967296) (hw : write_records img = Except.ok recs) :
    ∀ p ∈ dataPairsExt 0 recs,
      p.2.byte_count
          = min (16 - p.2.offset % 16) (maxKey img - (p.1 <<< 16 + p.2.offset) + 1)
      ∧ p.2.offset % 16 + p.2.byte_count ≤ 16
      ∧ p.1 <<< 16 + p.2.offset + p.2.byte_count ≤ maxKey img + 1 := by
  obtain ⟨hne, hrecs⟩ := write_records_ok img recs hw
  subst hrecs
  intro p hp
  rw [dataPairsExt_append_eof] at hp
  obtain ⟨h0, hlen, hble, hoffeq, hbc⟩ := emitLoop_data_shape img (maxKey img) hmax _ _ _ 0
    (minKey_le_maxKey img hne) (fun e he => by cases he) p hp
  refine ⟨hbc, ?_, ?_⟩
  · have h1 : p.2.byte_count ≤ 16 - p.2.offset % 16 := by
      rw [hbc]; exact min_le_left _ _
    have h2 : p.2.offset % 16 < 16 := Nat.mod_lt _ (by norm_num)
    omega
  · have h1 : p.2.byte_count ≤ maxKey img - (p.1 <<< 16 + p.2.offset) + 1 := by
      rw [hbc]; exact min_le_right _ _
    omega

/-- Witness for C5 on the one-byte image with address 0 and value 5. -/
theorem emit_chunk_bounds_witness :
    (1 : Nat) = min (16 - 0 % 16) (maxKey [(0, 5)] - (0 <<< 16 + 0) + 1)
    ∧ 0 % 16 + 1 ≤ 16
    ∧ 0 <<< 16 + 0 + 1 ≤ maxKey [(0, 5)] + 1 :=
  emit_chunk_bounds [(0, 5)]
    [genExtRecord 0,
      { byte_count := 1, offset := 0, record_type := 0, data := [5],
        checksum := compute_checksum 1 0 0 [5] }, eofRec]
    (by norm_num [maxKey, keyList]) (by rfl)
    (0, { byte_count := 1, offset := 0, record_type := 0, data := [5],
          checksum := compute_checksum 1 0 0 [5] }) (by decide)

/-- C6: the extended linear address records of the emitted sequence are
exactly one per distinct `address >>> 16` value covered by
`[min_addr, max_addr]`, in increasing order (they form the contiguous
range of segments); and every Data record appears while the extended
address in force equals the segment of every address the record
covers — i.e. its segment's ELA record precedes it. -/
theorem emit_ela_segments (img : Image) (recs : List Rec)
    (hmax : maxKey img < 4294967296) (hw : write_records img = Except.ok recs) :
    elaSegs recs
        = List.range' (minKey img >>> 16) (maxKey img >>> 16 - minKey img >>> 16 + 1)
    ∧ ∀ p ∈ dataPairsExt 0 recs, ∀ i < p.2.byte_count,
        (p.1 <<< 16 + p.2.offset + i) >>> 16 = p.1 := by
  obtain ⟨hne, hrecs⟩ := write_records_ok img recs hw
  subst hrecs
  constructor
  · rw [elaSegs_append_eof]
    rw [emitLoop_elaSegs img (maxKey img) hmax (maxKey img + 1 - minKey img) (minKey img)
      none (minKey_le_maxKey img hne) (Nat.le_refl _)]
    rw [if_neg (by simp)]
  · intro p hp i hi
    rw [dataPairsExt_append_eof] at hp
    obtain ⟨h0, hlen, hble, hoffeq, hbc⟩ := emitLoop_data_shape img (maxKey img) hmax _ _ _ 0
      (minKey_le_maxKey img hne) (fun e he => by cases he) p hp
    rw [and_65535_eq] at hoffeq
    have hshl : p.1 <<< 16 = p.1 * 65536 := shl16_eq p.1
    have hshr : (p.1 <<< 16 + p.2.offset + i) >>> 16
        = (p.1 <<< 16 + p.2.offset + i) / 65536 := shr16_eq _
    have hbcle : p.2.byte_count ≤ 16 - p.2.offset % 16 := by
      rw [hbc]; exact min_le_left _ _
    rw [hshr]
    omega

/-- Witness for C6 on the one-byte image with address 0 and value 5. -/
theorem emit_ela_segments_witness :
    elaSegs
        [genExtRecord 0,
          { byte_count := 1, offset := 0, record_type := 0, data := [5],
            checksum := compute_checksum 1 0 0 [5] }, eofRec]
        = List.range' (minKey [(0, 5)] >>> 16)
            (maxKey [(0, 5)] >>> 16 - minKey [(0, 5)] >>> 16 + 1)
    ∧ (0 <<< 16 + 0 + 0) >>> 16 = 0 :=
  ⟨(emit_ela_segments [(0, 5)]
      [genExtRecord 0,
        { byte_count := 1, offset := 0, record_type := 0, data := [5],
          checksum := compute_checksum 1 0 0 [5] }, eofRec]
      (by norm_num [maxKey, keyList]) (by rfl)).1,
    (emit_ela_segments [(0, 5)]
      [genExtRecord 0,
        { byte_count := 1, offset := 0, record_type := 0, data := [5],
          checksum := compute_checksum 1 0 0 [5] }, eofRec]
      (by norm_num [maxKey, keyList]) (by rfl)).2
      (0, { byte_count := 1, offset := 0, record_type := 0, data := [5],
            checksum := compute_checksum 1 0 0 [5] }) (by decide) 0 (by decide)⟩

/-- C3 counterexample: in the concrete scenario (file A defines
0x0000→0x10 and 0x0005→0x20, file B after it defines 0x0005→0xFF), the
emitted sequence is NOT just one Data record followed by one
EndOfFile record: an ExtendedLinearAddress record for segment 0 comes
first, because the loop starts with `last_ext_addr = None` and
`0 != None` forces an ELA record even for segment 0. -/
theorem scenario_emits_ela_first :
    parse_intel_hex [":0100000010EF", ":0100050020DA"] = Except.ok [(5, 32), (0, 16)]
    ∧ parse_intel_hex [":01000500FFFB"] = Except.ok [(5, 255)]
    ∧ write_records (mergeAll [[(5, 32), (0, 16)], [(5, 255)]])
        = Except.ok
            [genExtRecord 0,
              { byte_count := 6, offset := 0, record_type := 0,
                data := [16, 0, 0, 0, 0, 255], checksum := 235 }, eofRec]
    ∧ (genExtRecord 0).record_type = 4
    ∧ write_records (mergeAll [[(5, 32), (0, 16)], [(5, 255)]])
        ≠ Except.ok
            [{ byte_count := 6, offset := 0, record_type := 0,
               data := [16, 0, 0, 0, 0, 255], checksum := 235 }, eofRec] := by
  refine ⟨by rfl, by rfl, by rfl, by rfl, fun h => ?_⟩
  have h2 : write_records (mergeAll [[(5, 32), (0, 16)], [(5, 255)]])
      = Except.ok
          [genExtRecord 0,
            { byte_count := 6, offset := 0, record_type := 0,
              data := [16, 0, 0, 0, 0, 255], checksum := 235 }, eofRec] := by rfl
  rw [h2] at h
  exact absurd (Except.ok.inj h) (by decide)

/-- C3 amended: the merge of the scenario yields 0x0000→0x10 and
0x0005→0xFF, and emission with fill byte 0 produces exactly one
ExtendedLinearAddress record for segment 0, then one Data record of
length 6 with bytes 10 00 00 00 00 FF, then one EndOfFile record, and
nothing else — shown both at record level and on the exact output
lines. -/
theorem scenario_merge_emit :
    parse_intel_hex [":0100000010EF", ":0100050020DA"] = Except.ok [(5, 32), (0, 16)]
    ∧ parse_intel_hex [":01000500FFFB"] = Except.ok [(5, 255)]
    ∧ (mergeAll [[(5, 32), (0, 16)], [(5, 255)]]).get 0 = some 16
    ∧ (mergeAll [[(5, 32), (0, 16)], [(5, 255)]]).get 5 = some 255
    ∧ write_data_as_hex (mergeAll [[(5, 32), (0, 16)], [(5, 255)]])
        = Except.ok [":020000040000FA", ":060000001000000000FFEB", ":00000001FF"] := by
  refine ⟨by rfl, by rfl, by rfl, by rfl, by rfl⟩

/-! ### Hex text codec lemmas -/

theorem hexVal?_mem_isSome : ∀ c ∈ upperHexChars,
    hexVal? c = some ((hexVal? c).getD 0) ∧ (hexVal? c).getD 0 < 16 := by
  decide

theorem pad2_digits : ∀ c1 ∈ upperHexChars, ∀ c2 ∈ upperHexChars,
    padHexChars 2 (16 * (hexVal? c1).getD 0 + (hexVal? c2).getD 0) = [c1, c2] := by
  decide

theorem pyIntHex?_pair : ∀ c1 ∈ upperHexChars, ∀ c2 ∈ upperHexChars,
    pyIntHex? [c1, c2] = some (16 * (hexVal? c1).getD 0 + (hexVal? c2).getD 0) := by
  decide

set_option maxRecDepth 4096 in
theorem pad2_eq : ∀ v < 256,
    padHexChars 2 v = [hexDigitChar (v / 16), hexDigitChar (v % 16)] := by
  decide

set_option maxRecDepth 4096 in
theorem toHexChars_len_le : ∀ v < 256, (toHexChars v).length ≤ 2 := by
  decide

theorem toHexAux_append : ∀ (fuel n : Nat) (acc : List Char),
    toHexAux fuel n acc = toHexAux fuel n [] ++ acc := by
  intro fuel
  induction fuel with
  | zero => intro n acc; rfl
  | succ f ih =>
    intro n acc
    cases n with
    | zero => rfl
    | succ m =>
      show toHexAux f ((m + 1) / 16) (hexDigitChar ((m + 1) % 16) :: acc)
        = toHexAux f ((m + 1) / 16) (hexDigitChar ((m + 1) % 16) :: []) ++ acc
      rw [ih ((m + 1) / 16) (hexDigitChar ((m + 1) % 16) :: acc),
        ih ((m + 1) / 16) (hexDigitChar ((m + 1) % 16) :: []), List.append_assoc]
      rfl

theorem toHexAux_fuel : ∀ (n fuel : Nat), n ≤ fuel → toHexAux fuel n [] = toHexChars n := by
  intro n
  induction n using Nat.strong_induction_on with
  | _ n ih =>
    intro fuel hn
    cases n with
    | zero => cases fuel <;> rfl
    | succ m =>
      cases fuel with
      | zero => omega
      | succ f =>
        show toHexAux f ((m + 1) / 16) [hexDigitChar ((m + 1) % 16)] = toHexChars (m + 1)
        rw [toHexAux_append f ((m + 1) / 16) [hexDigitChar ((m + 1) % 16)],
          ih ((m + 1) / 16) (by omega) f (by omega)]
        rw [show toHexChars (m + 1)
            = toHexAux m ((m + 1) / 16) [hexDigitChar ((m + 1) % 16)] from rfl,
          toHexAux_append m ((m + 1) / 16) [hexDigitChar ((m + 1) % 16)],
          ih ((m + 1) / 16) (by omega) m (by omega)]

theorem toHexChars_step (n : Nat) (h : n ≠ 0) :
    toHexChars n = toHexChars (n / 16) ++ [hexDigitChar (n % 16)] := by
  cases n with
  | zero => exact absurd rfl h
  | succ m =>
    show toHexAux m ((m + 1) / 16) [hexDigitChar ((m + 1) % 16)] = _
    rw [toHexAux_append m ((m + 1) / 16) [hexDigitChar ((m + 1) % 16)],
      toHexAux_fuel ((m + 1) / 16) m (by omega)]

theorem pad4_split (v : Nat) (hv : v < 65536) :
    padHexChars 4 v = padHexChars 2 (v / 256) ++ padHexChars 2 (v % 256) := by
  by_cases h256 : v < 256
  · have hv0 : v / 256 = 0 := by omega
    have hmod : v % 256 = v := by omega
    rw [hv0, hmod]
    unfold padHexChars
    have h0 : toHexChars 0 = [] := rfl
    rw [h0]
    have hlen : (toHexChars v).length ≤ 2 := toHexChars_len_le v h256
    have h42 : 4 - (toHexChars v).length = 2 + (2 - (toHexChars v).length) := by omega
    rw [h42, List.replicate_add, List.append_assoc]
    simp
  · have hstep1 : toHexChars v = toHexChars (v / 16) ++ [hexDigitChar (v % 16)] :=
      toHexChars_step v (by omega)
    have hstep2 : toHexChars (v / 16)
        = toHexChars (v / 16 / 16) ++ [hexDigitChar (v / 16 % 16)] :=
      toHexChars_step (v / 16) (by omega)
    have hdd : v / 16 / 16 = v / 256 := by omega
    rw [hdd] at hstep2
    have hfull : toHexChars v
        = toHexChars (v / 256) ++ [hexDigitChar (v / 16 % 16), hexDigitChar (v % 16)] := by
      rw [hstep1, hstep2, List.append_assoc]
      rfl
    have hmodsplit : padHexChars 2 (v % 256)
        = [hexDigitChar (v % 256 / 16), hexDigitChar (v % 256 % 16)] :=
      pad2_eq (v % 256) (by omega)
    have hd1 : v % 256 / 16 = v / 16 % 16 := by omega
    have hd2 : v % 256 % 16 = v % 16 := by omega
    rw [hmodsplit, hd1, hd2]
    unfold padHexChars
    rw [hfull]
    have hlen : (toHexChars (v / 256) ++ [hexDigitChar (v / 16 % 16),
        hexDigitChar (v % 16)]).length = (toHexChars (v / 256)).length + 2 := by
      simp
    rw [hlen]
    have h42 : 4 - ((toHexChars (v / 256)).length + 2) = 2 - (toHexChars (v / 256)).length := by
      omega
    rw [h42, ← List.append_assoc]

theorem pyIntHex?_snoc (cs : List Char) (c : Char) (h : cs ≠ []) :
    pyIntHex? (cs ++ [c])
      = (pyIntHex? cs).bind fun a => (hexVal? c).map fun v => 16 * a + v := by
  unfold pyIntHex?
  rw [if_neg (by simp), if_neg (by simp [h])]
  rw [List.foldl_append]
  rfl

theorem pad2_regen (l : List Char) (hlen : l.length = 2) (hmem : ∀ c ∈ l, c ∈ upperHexChars) :
    ∃ v, pyIntHex? l = some v ∧ v < 256 ∧ padHexChars 2 v = l := by
  obtain ⟨c1, c2, rfl⟩ := List.length_eq_two.mp hlen
  have h1 := hexVal?_mem_isSome c1 (hmem c1 (by simp))
  have h2 := hexVal?_mem_isSome c2 (hmem c2 (by simp))
  exact ⟨16 * (hexVal? c1).getD 0 + (hexVal? c2).getD 0,
    pyIntHex?_pair c1 (hmem c1 (by simp)) c2 (hmem c2 (by simp)),
    by omega,
    pad2_digits c1 (hmem c1 (by simp)) c2 (hmem c2 (by simp))⟩

theorem length_eq_four_chars {l : List Char} (h : l.length = 4) :
    ∃ a b c d, l = [a, b, c, d] := by
  rcases l with _ | ⟨a, l⟩
  · simp at h
  rcases l with _ | ⟨b, l⟩
  · simp at h
  rcases l with _ | ⟨c, l⟩
  · simp at h
  rcases l with _ | ⟨d, l⟩
  · simp at h
  rcases l with _ | ⟨e, l⟩
  · exact ⟨a, b, c, d, rfl⟩
  · simp at h

theorem pad4_regen (l : List Char) (hlen : l.length = 4) (hmem : ∀ c ∈ l, c ∈ upperHexChars) :
    ∃ v, pyIntHex? l = some v ∧ v < 65536 ∧ padHexChars 4 v = l := by
  obtain ⟨c1, c2, c3, c4, rfl⟩ := length_eq_four_chars hlen
  obtain ⟨hs1, hb1⟩ := hexVal?_mem_isSome c1 (hmem c1 (by simp))
  obtain ⟨hs2, hb2⟩ := hexVal?_mem_isSome c2 (hmem c2 (by simp))
  obtain ⟨hs3, hb3⟩ := hexVal?_mem_isSome c3 (hmem c3 (by simp))
  obtain ⟨hs4, hb4⟩ := hexVal?_mem_isSome c4 (hmem c4 (by simp))
  have hpair : pyIntHex? [c1, c2]
      = some (16 * (hexVal? c1).getD 0 + (hexVal? c2).getD 0) :=
    pyIntHex?_pair c1 (hmem c1 (by simp)) c2 (hmem c2 (by simp))
  have h3app : ([c1, c2, c3] : List Char) = [c1, c2] ++ [c3] := rfl
  have h4app : ([c1, c2, c3, c4] : List Char) = [c1, c2, c3] ++ [c4] := rfl
  have hval3 : pyIntHex? [c1, c2, c3]
      = some (16 * (16 * (hexVal? c1).getD 0 + (hexVal? c2).getD 0)
          + (hexVal? c3).getD 0) := by
    rw [h3app, pyIntHex?_snoc _ _ (by simp), hpair, hs3]
    rfl
  have hval4 : pyIntHex? [c1, c2, c3, c4]
      = some (16 * (16 * (16 * (hexVal? c1).getD 0 + (hexVal? c2).getD 0)
          + (hexVal? c3).getD 0) + (hexVal? c4).getD 0) := by
    rw [h4app, pyIntHex?_snoc _ _ (by simp), hval3, hs4]
    rfl
  refine ⟨_, hval4, by omega, ?_⟩
  rw [pad4_split _ (by omega)]
  have hdiv : (16 * (16 * (16 * (hexVal? c1).getD 0 + (hexVal? c2).getD 0)
      + (hexVal? c3).getD 0) + (hexVal? c4).getD 0) / 256
      = 16 * (hexVal? c1).getD 0 + (hexVal? c2).getD 0 := by omega
  have hmod : (16 * (16 * (16 * (hexVal? c1).getD 0 + (hexVal? c2).getD 0)
      + (hexVal? c3).getD 0) + (hexVal? c4).getD 0) % 256
      = 16 * (hexVal? c3).getD 0 + (hexVal? c4).getD 0 := by omega
  rw [hdiv, hmod, pad2_digits c1 (hmem c1 (by simp)) c2 (hmem c2 (by simp)),
    pad2_digits c3 (hmem c3 (by simp)) c4 (hmem c4 (by simp))]
  rfl

theorem readBytes_shift (df : List Char) :
    ∀ n i, readBytes df (i + 1) n = readBytes (df.drop 2) i n := by
  intro n
  induction n with
  | zero => intro i; rfl
  | succ m ih =>
    intro i
    have hsl : pySlice df ((i + 1) * 2) ((i + 1) * 2 + 2)
        = pySlice (df.drop 2) (i * 2) (i * 2 + 2) := by
      unfold pySlice
      rw [List.drop_drop]
      have h1 : 2 + i * 2 = (i + 1) * 2 := by ring
      rw [h1]
      have h2 : (i + 1) * 2 + 2 - (i + 1) * 2 = i * 2 + 2 - i * 2 := by omega
      rw [h2]
    simp only [readBytes]
    rw [hsl, ih (i + 1)]

theorem readBytes_all (n : Nat) : ∀ df : List Char, df.length = 2 * n →
    (∀ c ∈ df, c ∈ upperHexChars) →
    ∃ data, readBytes df 0 n = some data ∧ data.length = n
      ∧ (data.map (padHexChars 2)).flatten = df ∧ ∀ b ∈ data, b < 256 := by
  induction n with
  | zero =>
    intro df hlen hmem
    have hdf : df = [] := List.length_eq_zero.mp (by omega)
    subst hdf
    exact ⟨[], rfl, rfl, rfl, by simp⟩
  | succ m ih =>
    intro df hlen hmem
    rcases df with _ | ⟨c1, df1⟩
    · simp at hlen
    rcases df1 with _ | ⟨c2, df2⟩
    · simp at hlen; omega
    obtain ⟨v, hv, hvlt, hpad⟩ := pad2_regen [c1, c2] rfl
      (by
        intro c hc
        rcases List.mem_cons.mp hc with rfl | hc2
        · exact hmem c (List.mem_cons_self _ _)
        · have : c = c2 := by simpa using hc2
          subst this
          exact hmem c (by simp))
    obtain ⟨data2, hd2, hlen2, hflat2, hbound2⟩ := ih df2
      (by simp at hlen; omega)
      (fun c hc => hmem c (by simp [hc]))
    refine ⟨v :: data2, ?_, by simp [hlen2], ?_, ?_⟩
    · simp only [readBytes]
      rw [show pySlice (c1 :: c2 :: df2) (0 * 2) (0 * 2 + 2) = [c1, c2] from rfl, hv,
        readBytes_shift (c1 :: c2 :: df2) m 0,
        show (c1 :: c2 :: df2).drop 2 = df2 from rfl, hd2]
      rfl
    · show padHexChars 2 v ++ (data2.map (padHexChars 2)).flatten = c1 :: c2 :: df2
      rw [hpad, hflat2]
      rfl
    · intro b hb
      rcases List.mem_cons.mp hb with rfl | hb2
      · exact hvlt
      · exact hbound2 b hb2

theorem take_add_chars : ∀ (m n : Nat) (l : List Char),
    l.take (m + n) = l.take m ++ (l.drop m).take n := by
  intro m
  induction m with
  | zero => intro n l; simp
  | succ k ih =>
    intro n l
    have h : k + 1 + n = (k + n) + 1 := by omega
    rw [h]
    cases l with
    | nil => simp
    | cons x xs =>
      show x :: xs.take (k + n) = x :: xs.take k ++ (xs.drop k).take n
      rw [ih n xs]
      rfl

/-- C9: for every well-formed (canonical, uppercase-hex) input line,
decoding then encoding reproduces the original line exactly except for
the trailing checksum field, which is recomputed from the decoded
fields rather than copied from the input (the parser never reads it). -/
theorem encode_decode_roundtrip (cs : List Char) (h : WellFormedLine cs) :
    ∃ r, decodeRecord cs = some r
      ∧ encodeRecord r = cs.take (9 + 2 * r.byte_count) ++ padHexChars 2 r.checksum
      ∧ r.checksum = compute_checksum r.byte_count r.offset r.record_type r.data
      ∧ cs.length = 9 + 2 * r.byte_count + 2 := by
  obtain ⟨hhead, hhex, hlen⟩ := h
  rcases cs with _ | ⟨c0, tail⟩
  · cases hhead
  have hc0 : c0 = ':' := by simpa using hhead
  subst hc0
  have htailhex : ∀ c ∈ tail, c ∈ upperHexChars := by
    intro c hc
    exact hhex c (by simpa using hc)
  -- the byte count field
  have hlen2 : tail.length + 1 = 11 + 2 * bcOf (':' :: tail) := by simpa using hlen
  have hs13 : pySlice (':' :: tail) 1 3 = tail.take 2 := rfl
  obtain ⟨v1, hv1, hv1lt, hv1pad⟩ := pad2_regen (tail.take 2)
    (by rw [List.length_take]; omega)
    (fun c hc => htailhex c (List.mem_of_mem_take hc))
  have hbc : bcOf (':' :: tail) = v1 := by
    unfold bcOf
    rw [hs13, hv1]
    rfl
  have htlen : tail.length = 10 + 2 * v1 := by
    rw [hbc] at hlen2
    omega
  -- the offset field
  have hs37 : pySlice (':' :: tail) 3 7 = (tail.drop 2).take 4 := rfl
  obtain ⟨voff, hvoff, hvofflt, hvoffpad⟩ := pad4_regen ((tail.drop 2).take 4)
    (by rw [List.length_take, List.length_drop]; omega)
    (fun c hc => htailhex c (List.mem_of_mem_drop (List.mem_of_mem_take hc)))
  -- the record type field
  have hs79 : pySlice (':' :: tail) 7 9 = (tail.drop 6).take 2 := rfl
  obtain ⟨vrt, hvrt, hvrtlt, hvrtpad⟩ := pad2_regen ((tail.drop 6).take 2)
    (by rw [List.length_take, List.length_drop]; omega)
    (fun c hc => htailhex c (List.mem_of_mem_drop (List.mem_of_mem_take hc)))
  -- the data field
  have hsdf : pySlice (':' :: tail) 9 (9 + v1 * 2) = (tail.drop 8).take (v1 * 2) := by
    unfold pySlice
    have h9 : 9 + v1 * 2 - 9 = v1 * 2 := by omega
    rw [h9]
    rfl
  obtain ⟨data, hdata, hdlen, hdflat, hdbound⟩ := readBytes_all v1 ((tail.drop 8).take (v1 * 2))
    (by rw [List.length_take, List.length_drop]; omega)
    (fun c hc => htailhex c (List.mem_of_mem_drop (List.mem_of_mem_take hc)))
  -- decoding succeeds with these fields
  have hdec : decodeRecord (':' :: tail)
      = some { byte_count := v1, offset := voff, record_type := vrt, data := data,
               checksum := compute_checksum v1 voff vrt data } := by
    unfold decodeRecord decodeFields
    rw [hs13, hv1, hs37, hvoff, hs79, hvrt]
    show (readBytes (pySlice (':' :: tail) 9 (9 + v1 * 2)) 0 v1).map _ = _
    rw [hsdf, hdata]
    rfl
  refine ⟨_, hdec, ?_, rfl, by show (':' :: tail).length = _; simp [htlen]; omega⟩
  -- the encoded head coincides with the first 9 + 2 * v1 characters
  show ':' :: (padHexChars 2 v1 ++ padHexChars 4 voff ++ padHexChars 2 vrt
      ++ (data.map (padHexChars 2)).flatten ++ padHexChars 2 (compute_checksum v1 voff vrt data))
    = (':' :: tail).take (9 + 2 * v1) ++ padHexChars 2 (compute_checksum v1 voff vrt data)
  have htake : (':' :: tail).take (9 + 2 * v1) = ':' :: tail.take (8 + 2 * v1) := by
    have h1 : 9 + 2 * v1 = (8 + 2 * v1) + 1 := by omega
    rw [h1]
    rfl
  have hsplit : tail.take (8 + 2 * v1)
      = tail.take 2 ++ ((tail.drop 2).take 4
          ++ ((tail.drop 6).take 2 ++ (tail.drop 8).take (2 * v1))) := by
    have h1 : 8 + 2 * v1 = 2 + (4 + (2 + 2 * v1)) := by omega
    rw [h1, take_add_chars 2 (4 + (2 + 2 * v1)) tail,
      take_add_chars 4 (2 + 2 * v1) (tail.drop 2), List.drop_drop,
      take_add_chars 2 (2 * v1) (tail.drop (2 + 4)), List.drop_drop]
  have hflat : (data.map (padHexChars 2)).flatten = (tail.drop 8).take (2 * v1) := by
    rw [hdflat]
    have : v1 * 2 = 2 * v1 := by ring
    rw [this]
  rw [htake, hsplit, hv1pad, hvoffpad, hvrtpad, hflat]
  simp only [List.cons_append, List.append_assoc]

/-! ### Stripping and junk independence -/

theorem pyStrip_append (p j : List Char) (hp : p ≠ [])
    (hnws : ∀ c ∈ p, ¬ c.isWhitespace) :
    pyStrip (p ++ j) = p ++ (j.reverse.dropWhile Char.isWhitespace).reverse := by
  unfold pyStrip
  have hdrop1 : (p ++ j).dropWhile Char.isWhitespace = p ++ j := by
    rcases p with _ | ⟨c, p2⟩
    · exact absurd rfl hp
    · show List.dropWhile Char.isWhitespace (c :: (p2 ++ j)) = _
      rw [List.dropWhile_cons]
      have hc : ¬ c.isWhitespace := hnws c (List.mem_cons_self _ _)
      simp [hc]
  rw [hdrop1, List.reverse_append, List.dropWhile_append]
  by_cases hrev : (j.reverse.dropWhile Char.isWhitespace).isEmpty
  · rw [if_pos hrev]
    have hj : (j.reverse.dropWhile Char.isWhitespace) = [] := by
      simpa [List.isEmpty_iff] using hrev
    rw [hj]
    have hprev : p.reverse.dropWhile Char.isWhitespace = p.reverse := by
      rcases hrev2 : p.reverse with _ | ⟨c, p2⟩
      · rfl
      · rw [List.dropWhile_cons]
        have hcp : c ∈ p := by
          have : c ∈ p.reverse := by rw [hrev2]; exact List.mem_cons_self _ _
          simpa using this
        simp [hnws c hcp]
    rw [hprev, List.reverse_reverse]
    simp
  · rw [if_neg hrev, List.reverse_append, List.reverse_reverse]

theorem pyStrip_eq_self (p : List Char) (hp : p ≠ [])
    (hnws : ∀ c ∈ p, ¬ c.isWhitespace) : pyStrip p = p := by
  have h := pyStrip_append p [] hp hnws
  simpa using h

theorem pySlice_append (p j : List Char) (a b : Nat) (hb : b ≤ p.length) :
    pySlice (p ++ j) a b = pySlice p a b := by
  unfold pySlice
  by_cases ha : a ≤ p.length
  · rw [List.drop_append_of_le_length ha]
    rw [List.take_append_of_le_length (by rw [List.length_drop]; omega)]
  · have h1 : p.drop a = [] := List.drop_eq_nil_of_le (by omega)
    have h2 : (p ++ j).drop a = j.drop (a - p.length) := by
      rw [List.drop_append_eq_append_drop, h1]
      simp
    rw [h2, h1]
    have hba : b - a = 0 := by omega
    rw [hba]
    rfl

theorem decodeFields_append (p j : List Char) (bc : Nat)
    (hbc : pyIntHex? (pySlice p 1 3) = some bc)
    (hlen : p.length = 9 + 2 * bc) :
    decodeFields (p ++ j) = decodeFields p := by
  unfold decodeFields
  rw [pySlice_append p j 1 3 (by omega), pySlice_append p j 3 7 (by omega),
    pySlice_append p j 7 9 (by omega), hbc]
  rcases h37 : pyIntHex? (pySlice p 3 7) with _ | voff
  · rfl
  rcases h79 : pyIntHex? (pySlice p 7 9) with _ | vrt
  · rfl
  show some (bc, voff, vrt, pySlice (p ++ j) 9 (9 + bc * 2))
    = some (bc, voff, vrt, pySlice p 9 (9 + bc * 2))
  rw [pySlice_append p j 9 (9 + bc * 2) (by omega)]

theorem processLine_junk (p : List Char) (bc : Nat)
    (hws : ∀ c ∈ p, ¬ c.isWhitespace)
    (hcol : p.head? = some ':')
    (hbc : pyIntHex? (pySlice p 1 3) = some bc)
    (hlen : p.length = 9 + 2 * bc) :
    ∀ j ext img, processLine (p ++ j) ext img = processLine p ext img := by
  intro j ext img
  have hp : p ≠ [] := by
    intro h
    rw [h] at hcol
    cases hcol
  have hhead : (p ++ (j.reverse.dropWhile Char.isWhitespace).reverse).head? = p.head? := by
    rcases p with _ | ⟨c, p2⟩
    · exact absurd rfl hp
    · rfl
  unfold processLine
  simp only [pyStrip_append p j hp hws, pyStrip_eq_self p hp hws, hhead,
    decodeFields_append p ((j.reverse.dropWhile Char.isWhitespace).reverse) bc hbc hlen]

theorem pyIntHex?_two (c1 c2 : Char) (v1 v2 : Nat)
    (h1 : hexVal? c1 = some v1) (h2 : hexVal? c2 = some v2) :
    pyIntHex? [c1, c2] = some (16 * v1 + v2) := by
  unfold pyIntHex?
  rw [if_neg (by simp)]
  show (((some 0).bind fun a => (hexVal? c1).map fun v => 16 * a + v).bind
      fun a => (hexVal? c2).map fun v => 16 * a + v) = some (16 * v1 + v2)
  rw [h1, h2]
  show some (16 * (16 * 0 + v1) + v2) = some (16 * v1 + v2)
  congr 1
  omega

theorem pySlice_shift2 (df : List Char) (i : Nat) :
    pySlice df ((i + 1) * 2) ((i + 1) * 2 + 2) = pySlice (df.drop 2) (i * 2) (i * 2 + 2) := by
  unfold pySlice
  rw [List.drop_drop]
  have h1 : 2 + i * 2 = (i + 1) * 2 := by ring
  rw [h1]
  have h2 : (i + 1) * 2 + 2 - (i + 1) * 2 = i * 2 + 2 - i * 2 := by omega
  rw [h2]

theorem readStoreBytes_shift (df : List Char) :
    ∀ n base i img, readStoreBytes df base (i + 1) n img
      = readStoreBytes (df.drop 2) (base + 1) i n img := by
  intro n
  induction n with
  | zero => intro base i img; rfl
  | succ m ih =>
    intro base i img
    simp only [readStoreBytes]
    rw [pySlice_shift2 df i]
    rcases hx : pyIntHex? (pySlice (df.drop 2) (i * 2) (i * 2 + 2)) with _ | b
    · rfl
    · have hset : base + (i + 1) = base + 1 + i := by omega
      rw [hset]
      show readStoreBytes df base (i + 1 + 1) m (img.set (base + 1 + i) b)
        = readStoreBytes (List.drop 2 df) (base + 1) (i + 1) m (img.set (base + 1 + i) b)
      exact ih base (i + 1) (Image.set img (base + 1 + i) b)

theorem readStoreBytes_all (n : Nat) : ∀ (df : List Char) (base : Nat) (img : Image),
    df.length = 2 * n → (∀ c ∈ df, (hexVal? c).isSome) →
    ∃ img2, readStoreBytes df base 0 n img = some img2
      ∧ (∀ k, k < n → img2.get (base + k) = pyIntHex? (pySlice df (k * 2) (k * 2 + 2)))
      ∧ ∀ a, (∀ k, k < n → a ≠ base + k) → img2.get a = img.get a := by
  induction n with
  | zero =>
    intro df base img hlen hhex
    exact ⟨img, rfl, fun k hk => absurd hk (by omega), fun a _ => rfl⟩
  | succ m ih =>
    intro df base img hlen hhex
    rcases df with _ | ⟨c1, df1⟩
    · simp at hlen
    rcases df1 with _ | ⟨c2, df2⟩
    · simp at hlen; omega
    obtain ⟨v1, hv1⟩ := Option.isSome_iff_exists.mp (hhex c1 (by simp))
    obtain ⟨v2, hv2⟩ := Option.isSome_iff_exists.mp (hhex c2 (by simp))
    have hpair : pyIntHex? [c1, c2] = some (16 * v1 + v2) := pyIntHex?_two c1 c2 v1 v2 hv1 hv2
    obtain ⟨img2, himg2, hget2, hpres2⟩ := ih df2 (base + 1)
      (img.set (base + 0) (16 * v1 + v2))
      (by simp at hlen ⊢; omega) (fun c hc => hhex c (by simp [hc]))
    refine ⟨img2, ?_, ?_, ?_⟩
    · simp only [readStoreBytes]
      rw [show pySlice (c1 :: c2 :: df2) (0 * 2) (0 * 2 + 2) = [c1, c2] from rfl, hpair]
      show readStoreBytes (c1 :: c2 :: df2) base (0 + 1) m
          (img.set (base + 0) (16 * v1 + v2)) = some img2
      rw [readStoreBytes_shift (c1 :: c2 :: df2) m base 0 _]
      exact himg2
    · intro k hk
      cases k with
      | zero =>
        have huntouched := hpres2 (base + 0) (fun k2 hk2 hak => by omega)
        rw [huntouched, Image.get_set_self,
          show pySlice (c1 :: c2 :: df2) (0 * 2) (0 * 2 + 2) = [c1, c2] from rfl, hpair]
      | succ k2 =>
        have hg := hget2 k2 (by omega)
        have haddr : base + (k2 + 1) = base + 1 + k2 := by omega
        rw [haddr, hg, pySlice_shift2 (c1 :: c2 :: df2) k2]
        rfl
    · intro a ha
      have h1 := hpres2 a (fun k2 hk2 hak => by
        have := ha (k2 + 1) (by omega)
        omega)
      rw [h1, Image.get_set_ne img _ (by
        have := ha 0 (by omega)
        omega)]

theorem pyIntHex?_isSome_of (cs : List Char) (hne : cs ≠ [])
    (h : ∀ c ∈ cs, (hexVal? c).isSome) : (pyIntHex? cs).isSome := by
  unfold pyIntHex?
  rw [if_neg (by simpa using hne)]
  have hgen : ∀ (l : List Char) (a : Nat), (∀ c ∈ l, (hexVal? c).isSome) →
      (l.foldl (fun acc c => acc.bind fun a2 => (hexVal? c).map fun v => 16 * a2 + v)
        (some a)).isSome := by
    intro l
    induction l with
    | nil => intro a _; rfl
    | cons c l2 ihl =>
      intro a hl
      obtain ⟨v, hv⟩ := Option.isSome_iff_exists.mp (hl c (List.mem_cons_self _ _))
      show (List.foldl _
          ((some a).bind fun a2 => (hexVal? c).map fun v2 => 16 * a2 + v2) l2).isSome
      rw [show ((some a).bind fun a2 => (hexVal? c).map fun v2 => 16 * a2 + v2)
          = (hexVal? c).map fun v2 => 16 * a + v2 from rfl, hv]
      exact ihl (16 * a + v) (fun c2 hc2 => hl c2 (List.mem_cons_of_mem _ hc2))
  exact hgen cs 0 h

theorem mem_drop1_of_slice {p : List Char} {c : Char} {a b : Nat} (ha : 1 ≤ a)
    (hc : c ∈ pySlice p a b) : c ∈ p.drop 1 := by
  unfold pySlice at hc
  have h1 : p.drop a = (p.drop 1).drop (a - 1) := by
    rw [List.drop_drop]
    congr 1
    omega
  rw [h1] at hc
  exact List.mem_of_mem_drop (List.mem_of_mem_take hc)

theorem pySlice_of_df (p : List Char) (bc k : Nat) (hlen : p.length = 9 + 2 * bc) :
    pySlice (pySlice p 9 (9 + bc * 2)) (k * 2) (k * 2 + 2)
      = pySlice p (9 + 2 * k) (9 + 2 * k + 2) := by
  unfold pySlice
  have h1 : 9 + bc * 2 - 9 = bc * 2 := by omega
  rw [h1]
  have hfull : (p.drop 9).take (bc * 2) = p.drop 9 :=
    List.take_of_length_le (by rw [List.length_drop]; omega)
  rw [hfull, List.drop_drop]
  have h2 : 9 + k * 2 = 9 + 2 * k := by ring
  rw [h2]
  have h3 : k * 2 + 2 - k * 2 = 9 + 2 * k + 2 - (9 + 2 * k) := by omega
  rw [h3]

/-- C10: decoding never reads past the data field.  For any line whose
first `9 + 2 * byte_count` characters form the fields, everything after
that position — the checksum digits and anything beyond, absent,
non-hex or garbage — has no influence on the result (the source
comments the checksum read out); and when the fields are valid hex with
record type 0, parsing the single line succeeds and stores exactly the
decoded data bytes at `offset + k`. -/
theorem parse_reads_only_fields (p : List Char) (bc : Nat)
    (hws : ∀ c ∈ p, ¬ c.isWhitespace)
    (hcol : p.head? = some ':')
    (hbc : pyIntHex? (pySlice p 1 3) = some bc)
    (hlen : p.length = 9 + 2 * bc) :
    (∀ j1 j2 ext img, processLine (p ++ j1) ext img = processLine (p ++ j2) ext img)
    ∧ ((∀ c ∈ p.drop 1, (hexVal? c).isSome) →
        pyIntHex? (pySlice p 7 9) = some 0 →
        ∀ j, ∃ img2, parse_intel_hex [String.mk (p ++ j)] = Except.ok img2
          ∧ ∀ k, k < bc →
              img2.get ((pyIntHex? (pySlice p 3 7)).getD 0 + k)
                = pyIntHex? (pySlice p (9 + 2 * k) (9 + 2 * k + 2))) := by
  have hp : p ≠ [] := by
    intro h
    rw [h] at hcol
    cases hcol
  constructor
  · intro j1 j2 ext img
    rw [processLine_junk p bc hws hcol hbc hlen j1 ext img,
      processLine_junk p bc hws hcol hbc hlen j2 ext img]
  · intro hhex h79 j
    have hoffsome : (pyIntHex? (pySlice p 3 7)).isSome := by
      apply pyIntHex?_isSome_of
      · intro hz
        have : (pySlice p 3 7).length = 4 := by
          unfold pySlice
          rw [List.length_take, List.length_drop]
          omega
        rw [hz] at this
        cases this
      · intro c hc
        exact hhex c (mem_drop1_of_slice (by omega) hc)
    obtain ⟨off, hoff⟩ := Option.isSome_iff_exists.mp hoffsome
    have hdf : decodeFields p = some (bc, off, 0, pySlice p 9 (9 + bc * 2)) := by
      unfold decodeFields
      rw [hbc, hoff, h79]
    have hdflen : (pySlice p 9 (9 + bc * 2)).length = 2 * bc := by
      unfold pySlice
      rw [List.length_take, List.length_drop]
      omega
    obtain ⟨img2, hrun, hget, _⟩ := readStoreBytes_all bc (pySlice p 9 (9 + bc * 2))
      ((0 : Nat) <<< 16 + off) [] hdflen
      (fun c hc => hhex c (mem_drop1_of_slice (by omega) hc))
    have hpl : processLine p 0 [] = LineOut.cont 0 img2 := by
      unfold processLine
      rw [pyStrip_eq_self p hp hws]
      rw [if_neg (by rw [hcol]; simp)]
      rw [hdf]
      show (match readStoreBytes (pySlice p 9 (9 + bc * 2)) ((0 : Nat) <<< 16 + off) 0 bc []
          with
        | some img3 => LineOut.cont 0 img3
        | none => LineOut.err "ValueError") = LineOut.cont 0 img2
      rw [hrun]
    refine ⟨img2, ?_, ?_⟩
    · show parseLines [p ++ j] 0 [] = Except.ok img2
      simp only [parseLines]
      rw [processLine_junk p bc hws hcol hbc hlen j 0 [], hpl]
    · intro k hk
      have hgk := hget k hk
      rw [pySlice_of_df p bc k hlen] at hgk
      have h0 : (0 : Nat) <<< 16 + off = off := by
        rw [shl16_eq]
        omega
      rw [h0] at hgk
      rw [hoff]
      exact hgk

/-- Witness for C10: the same valid prefix followed by two different
junk tails (valid hex checksum versus garbage) parses identically. -/
theorem parse_reads_only_fields_witness :
    processLine (":0100000010".toList ++ "AB".toList) 0 []
      = processLine (":0100000010".toList ++ "Z!".toList) 0 [] :=
  (parse_reads_only_fields ":0100000010".toList 1 (by decide) (by decide) (by decide)
    (by decide)).1 "AB".toList "Z!".toList 0 []

/-- C7 counterexample: lines whose data field is shorter than
`byte_count` demands can parse successfully.  `":020000040A"` is an
ExtendedLinearAddress record with byte_count 2 but only 2 of the 4
demanded data characters; Python slicing truncates silently and
`int("0A", 16)` succeeds, so the file parses without any error.
`":02000000ABC"` is a Data record with byte_count 2 but only 3 data
characters; the final one-character slice `"C"` still parses as a hex
byte, storing 0xAB at 0 and 0xC at 1. -/
theorem truncated_records_parse_ok :
    parse_intel_hex [":020000040A"] = Except.ok []
    ∧ parse_intel_hex [":02000000ABC"] = Except.ok [(1, 12), (0, 171)] := by
  constructor
  · rfl
  · rfl

/-- C7 amended: for a Data record, the parse does fail with a
`ValueError` whenever the data field misses at least one full
hex-digit pair (its length is at most `2 * byte_count - 2`); only an
ExtendedLinearAddress record with a truncated hex data field, or a
Data record missing just the final half pair, slips through. -/
theorem truncated_data_record_fails (l : List Char) (bc off : Nat) (df : List Char)
    (hws : ∀ c ∈ l, ¬ c.isWhitespace)
    (hcol : l.head? = some ':')
    (hdec : decodeFields l = some (bc, off, 0, df))
    (hshort : df.length + 2 ≤ 2 * bc) :
    parse_intel_hex [String.mk l] = Except.error "ValueError" := by
  have hp : l ≠ [] := by
    intro h
    rw [h] at hcol
    cases hcol
  have hfail : ∀ (n : Nat) (dfx : List Char) (base i : Nat) (img : Image), 1 ≤ n →
      dfx.length + 2 ≤ 2 * (i + n) →
      readStoreBytes dfx base i n img = none := by
    intro n
    induction n with
    | zero =>
      intro dfx base i img h1 _
      omega
    | succ m ihm =>
      intro dfx base i img h1 h2
      by_cases hemp : dfx.length ≤ i * 2
      · have hsl : pySlice dfx (i * 2) (i * 2 + 2) = [] := by
          unfold pySlice
          rw [List.drop_eq_nil_of_le hemp, List.take_nil]
        simp only [readStoreBytes]
        rw [hsl]
        rfl
      · have hm1 : 1 ≤ m := by omega
        simp only [readStoreBytes]
        rcases hx : pyIntHex? (pySlice dfx (i * 2) (i * 2 + 2)) with _ | b
        · rfl
        · show readStoreBytes dfx base (i + 1) m (img.set (base + i) b) = none
          exact ihm dfx base (i + 1) (img.set (base + i) b) hm1 (by omega)
  show parseLines [l] 0 [] = Except.error "ValueError"
  have hpl : processLine l 0 [] = LineOut.err "ValueError" := by
    unfold processLine
    rw [pyStrip_eq_self l hp hws]
    rw [if_neg (by rw [hcol]; simp)]
    rw [hdec]
    show (match readStoreBytes df ((0 : Nat) <<< 16 + off) 0 bc [] with
      | some img3 => LineOut.cont 0 img3
      | none => LineOut.err "ValueError") = LineOut.err "ValueError"
    rw [hfail bc df ((0 : Nat) <<< 16 + off) 0 [] (by omega) (by omega)]
  simp only [parseLines]
  rw [hpl]

/-- Witness for the amended C7 on the concrete truncated Data record
`":02000000AB"` (byte_count 2, only one data pair present). -/
theorem truncated_data_record_fails_witness :
    parse_intel_hex [String.mk ":02000000AB".toList] = Except.error "ValueError" :=
  truncated_data_record_fails ":02000000AB".toList 2 0 ['A', 'B'] (by decide) (by decide)
    (by decide) (by decide)

/-- Witness for C9 on the line `":0100000010AB"`: decoding yields the
record with data byte 0x10, and re-encoding reproduces the first 11
characters with the recomputed checksum 0xEF in place of `"AB"`. -/
theorem encode_decode_roundtrip_witness :
    decodeRecord ":0100000010AB".toList
        = some { byte_count := 1, offset := 0, record_type := 0, data := [16], checksum := 239 }
      ∧ encodeRecord
            { byte_count := 1, offset := 0, record_type := 0, data := [16], checksum := 239 }
          = (":0100000010AB".toList).take 11 ++ padHexChars 2 239 := by
  obtain ⟨r, hdec, henc, hcks, hlen⟩ :=
    encode_decode_roundtrip ":0100000010AB".toList (by decide)
  have h2 : (some r : Option Rec)
      = some { byte_count := 1, offset := 0, record_type := 0, data := [16], checksum := 239 } := by
    rw [← hdec]
    rfl
  have hr : r = { byte_count := 1, offset := 0, record_type := 0, data := [16], checksum := 239 } :=
    Option.some.inj h2
  subst hr
  exact ⟨hdec, henc⟩
